import Mathlib

/-!
Shallow embedding of `winmem_decompress.py` (the plain-LZ77 decompressor
`LZ77DecompressBuffer`, plus the window scanner and the page post-processing
step of `ScanBuffer`), together with theorems checking the natural-language
specification against it.

Bytes are modelled as `Nat` values; Python byte strings become `List Nat`.
The mutable decode loop becomes a step function `lzStep` on an explicit
state record, iterated by a fuelled loop `lzLoopS`; the fuel
`Buffer.length + 1` is proved sufficient (every continuing step strictly
advances the input position).
-/

set_option autoImplicit false

namespace Winmem

/-- Embeds `is_valid_write_request`: output positions below 2 GiB are accepted. -/
def isValidWriteRequest (offset : Nat) : Bool :=
  decide (offset < 2*1024*1024*1024)

/-- Embeds the Python slice `Buffer[pos : pos + n]` on a byte list. -/
def sliceBytes (buf : List Nat) (pos n : Nat) : List Nat :=
  (buf.drop pos).take n

/-- Little-endian value of a byte list, as computed by `struct.unpack` with
the formats used in the source (4-byte flag words and 2-byte match words). -/
def leNat (bs : List Nat) : Nat :=
  bs.foldr (fun b acc => b + 256 * acc) 0

/-- Embeds `OutputObject.seek(pos)` followed by writing one byte to the
`BytesIO` object: overwrite in place when `pos` is inside the buffer,
otherwise zero-fill any gap past the end and append. -/
def bytesWrite (out : List Nat) (pos b : Nat) : List Nat :=
  if pos < out.length then out.set pos b
  else out ++ List.replicate (pos - out.length) 0 ++ [b]

/-- The local mutable state of the decode loop in `LZ77DecompressBuffer`:
`BufferedFlags`, `BufferedFlagCount`, `InputPosition`, `OutputPosition`,
`LastLengthHalfByte` and the `BytesIO` output object. -/
structure DecompState where
  bufferedFlags : Nat
  bufferedFlagCount : Nat
  inputPosition : Nat
  outputPosition : Nat
  lastLengthHalfByte : Nat
  output : List Nat
deriving Repr, DecidableEq

/-- The state at the beginning of a decode run: all counters zero, empty output. -/
def lzInit : DecompState :=
  { bufferedFlags := 0, bufferedFlagCount := 0, inputPosition := 0,
    outputPosition := 0, lastLengthHalfByte := 0, output := [] }

/-- Embeds lines 87-112 of the source: obtain the 4-bit length-extension
value for a match whose 3-bit field is 7.  With no cached byte pending
(`lastHalf = 0`), read one byte, take its low nibble, cache the byte's
position and consume one input byte; with a cached byte pending, take that
byte's high nibble, clear the cache and consume nothing.  Returns
`(nibble, new input position, new cache)`, or `none` on a failed read. -/
def fetchLengthNibble (buf : List Nat) (inputPos lastHalf : Nat) :
    Option (Nat × Nat × Nat) :=
  if lastHalf = 0 then
    match buf[inputPos]? with
    | none => none
    | some b => some (b % 16, inputPos + 1, inputPos)
  else
    match buf[lastHalf]? with
    | none => none
    | some b => some (b / 16, inputPos, 0)

/-- Embeds lines 85-143 of the source: the complete match-length computation
starting from the 16-bit match word `w`, including the nibble extension,
the escape byte and the 16-bit escape value.  Returns
`(final length, new input position, new cache)`, or `none` where the source
breaks out of the loop with bogus data. -/
def decodeMatchLength (buf : List Nat) (w inputPos lastHalf : Nat) :
    Option (Nat × Nat × Nat) :=
  if w % 8 = 7 then
    match fetchLengthNibble buf inputPos lastHalf with
    | none => none
    | some (nib, ip1, lh1) =>
      if nib = 15 then
        match buf[ip1]? with
        | none => none
        | some b2 =>
          if b2 = 255 then
            let bs := sliceBytes buf (ip1 + 1) 2
            if bs.length = 2 then
              if leNat bs < 15 + 7 then none
              else some (leNat bs - (15 + 7) + 15 + 7 + 3, ip1 + 1 + 2, lh1)
            else none
          else some (b2 + 15 + 7 + 3, ip1 + 1, lh1)
      else some (nib + 7 + 3, ip1, lh1)
  else some (w % 8 + 3, inputPos, lastHalf)

/-- Embeds the back-reference copy loop (lines 145-171): copy `n` bytes one
at a time from `pos - off` to `pos`.  Returns the updated output, the new
output position and a flag that is `true` exactly when the source sets
`bogus_data` (negative read position, failed read-back, or write past the
2 GiB ceiling). -/
def matchCopy : Nat → List Nat → Nat → Nat → List Nat × Nat × Bool
  | 0, out, pos, _ => (out, pos, false)
  | n + 1, out, pos, off =>
    if pos < off then (out, pos, true)
    else
      match out[pos - off]? with
      | none => (out, pos, true)
      | some b =>
        if isValidWriteRequest pos then
          matchCopy n (bytesWrite out pos b) (pos + 1) off
        else (out, pos, true)

/-- Result of one iteration of the decode loop: either the loop stops and
the function returns a byte list, or it continues with an updated state. -/
inductive StepResult where
  | done : List Nat → StepResult
  | cont : DecompState → StepResult
deriving Repr, DecidableEq

/-- Embeds lines 35-45 of the source: when the flag counter is zero, read a
4-byte little-endian flag word and reset the counter to 32; `none` when
fewer than 4 bytes remain. -/
def refillFlags (buf : List Nat) (s : DecompState) : Option DecompState :=
  if s.bufferedFlagCount = 0 then
    let bs := sliceBytes buf s.inputPosition 4
    if bs.length = 4 then
      some { s with bufferedFlags := leNat bs,
                    inputPosition := s.inputPosition + 4,
                    bufferedFlagCount := 32 }
    else none
  else some s

/-- The part of one decode-loop iteration after the flag-word refill
(lines 47-171 of the source): consume one flag bit, then process either a
literal byte or a back-reference match. -/
def lzStepBody (buf : List Nat) (s : DecompState) : StepResult :=
    let count := s.bufferedFlagCount - 1
    if s.bufferedFlags &&& (1 <<< count) = 0 then
      match buf[s.inputPosition]? with
      | none => .done s.output
      | some b =>
        if isValidWriteRequest s.outputPosition then
          .cont { s with output := bytesWrite s.output s.outputPosition b,
                         inputPosition := s.inputPosition + 1,
                         outputPosition := s.outputPosition + 1,
                         bufferedFlagCount := count }
        else .done s.output
    else
      if s.inputPosition = buf.length then .done s.output
      else
        let mbs := sliceBytes buf s.inputPosition 2
        if mbs.length = 2 then
          match decodeMatchLength buf (leNat mbs) (s.inputPosition + 2)
              s.lastLengthHalfByte with
          | none => .done s.output
          | some (len, ip2, lh2) =>
            let r := matchCopy len s.output s.outputPosition (leNat mbs / 8 + 1)
            if r.2.2 then .done r.1
            else .cont { bufferedFlags := s.bufferedFlags,
                         bufferedFlagCount := count,
                         inputPosition := ip2,
                         outputPosition := r.2.1,
                         lastLengthHalfByte := lh2,
                         output := r.1 }
        else .done s.output

/-- One iteration of the `while True` decode loop of `LZ77DecompressBuffer`:
refill the flag word if exhausted, then run the rest of the loop body. -/
def lzStep (buf : List Nat) (s0 : DecompState) : StepResult :=
  match refillFlags buf s0 with
  | none => .done s0.output
  | some s => lzStepBody buf s

/-- Fuelled iteration of `lzStep`; returns the state at which the loop
stopped together with the returned byte list. -/
def lzLoopS (buf : List Nat) : Nat → DecompState → DecompState × List Nat
  | 0, s => (s, s.output)
  | fuel + 1, s =>
    match lzStep buf s with
    | .done out => (s, out)
    | .cont s' => lzLoopS buf fuel s'

/-- Embeds `LZ77DecompressBuffer`: run the decode loop from the initial
state.  The fuel `buf.length + 1` is sufficient because every continuing
step strictly advances the input position (proved below). -/
def LZ77DecompressBuffer (buf : List Nat) : List Nat :=
  (lzLoopS buf (buf.length + 1) lzInit).2

/-- States reachable by the decode loop on a given input buffer. -/
inductive Reaches (buf : List Nat) : DecompState → Prop where
  | init : Reaches buf lzInit
  | step {s s' : DecompState} : Reaches buf s → lzStep buf s = .cont s' →
      Reaches buf s'

/-- Embeds `compressed_data.startswith(null_bytes_12)`: the window begins
with 12 zero bytes (false for windows shorter than 12 bytes, as in Python). -/
def startsWithNulls12 (w : List Nat) : Bool :=
  w.take 12 == List.replicate 12 0

/-- Embeds the scanning loop of `ScanBuffer` (lines 188-195) from a given
position: windows of up to 4096 bytes at 16-byte stride, keeping those that
do not begin with 12 zero bytes. -/
def scanWindowsFrom (buf : List Nat) (pos : Nat) : List (List Nat) :=
  if h : pos < buf.length then
    if startsWithNulls12 (sliceBytes buf pos 4096) then scanWindowsFrom buf (pos + 16)
    else sliceBytes buf pos 4096 :: scanWindowsFrom buf (pos + 16)
  else []
termination_by buf.length - pos
decreasing_by all_goals omega

/-- The candidate windows `ScanBuffer` submits for decompression. -/
def ScanWindows (buf : List Nat) : List (List Nat) :=
  scanWindowsFrom buf 0

/-- Embeds the post-processing step of `ScanBuffer` (lines 197-207): discard
decompressed data shorter than 1024 bytes, truncate data longer than 4096
bytes, zero-pad shorter data to exactly 4096 bytes. -/
def PagePostProcess (d : List Nat) : Option (List Nat) :=
  if 1024 ≤ d.length then
    if 4096 < d.length then some (d.take 4096)
    else if d.length < 4096 then some (d ++ List.replicate (4096 - d.length) 0)
    else some d
  else none

/-! ## Helper lemmas about the byte-level operations -/

lemma sliceBytes_length (buf : List Nat) (pos n : Nat) :
    (sliceBytes buf pos n).length = min n (buf.length - pos) := by
  simp [sliceBytes]

lemma sliceBytes_length_eq_iff {buf : List Nat} {pos n : Nat} (hn : 0 < n) :
    (sliceBytes buf pos n).length = n ↔ pos + n ≤ buf.length := by
  rw [sliceBytes_length]; omega

lemma sliceBytes_subset {buf : List Nat} {pos n : Nat} :
    ∀ b ∈ sliceBytes buf pos n, b ∈ buf := by
  intro b hb
  exact List.drop_subset pos buf (List.take_subset n _ hb)

lemma get?_some_lt {buf : List Nat} {n b : Nat} (h : buf[n]? = some b) :
    n < buf.length :=
  (List.getElem?_eq_some.mp h).1

lemma get?_some_mem {buf : List Nat} {n b : Nat} (h : buf[n]? = some b) :
    b ∈ buf := by
  obtain ⟨hl, he⟩ := List.getElem?_eq_some.mp h
  exact he ▸ List.getElem_mem hl

lemma leNat_lt_pow : ∀ (bs : List Nat), (∀ b ∈ bs, b < 256) →
    leNat bs < 256 ^ bs.length := by
  intro bs
  induction bs with
  | nil => intro _; simp [leNat]
  | cons a t ih =>
    intro h
    have ha : a < 256 := h a (List.mem_cons_self a t)
    have ht : leNat t < 256 ^ t.length :=
      ih (fun b hb => h b (List.mem_cons_of_mem a hb))
    have : leNat (a :: t) = a + 256 * leNat t := rfl
    rw [this, List.length_cons, pow_succ]
    nlinarith

lemma bytesWrite_append {out : List Nat} {pos b : Nat} (h : out.length = pos) :
    bytesWrite out pos b = out ++ [b] := by
  subst h
  simp [bytesWrite]

lemma refillFlags_spec {buf : List Nat} {s s₁ : DecompState}
    (h : refillFlags buf s = some s₁) :
    (s.bufferedFlagCount ≠ 0 ∧ s₁ = s) ∨
    (s.bufferedFlagCount = 0 ∧ s.inputPosition + 4 ≤ buf.length ∧
      s₁ = { s with bufferedFlags := leNat (sliceBytes buf s.inputPosition 4),
                    inputPosition := s.inputPosition + 4,
                    bufferedFlagCount := 32 }) := by
  simp only [refillFlags] at h
  split at h
  · split at h
    · next hc hl =>
      right
      refine ⟨hc, (sliceBytes_length_eq_iff (by omega)).mp hl, ?_⟩
      injection h with h'
      exact h'.symm
    · cases h
  · next hc =>
    left
    refine ⟨hc, ?_⟩
    injection h with h'
    exact h'.symm

lemma fetchLengthNibble_spec {buf : List Nat} {ip lh nib ip1 lh1 : Nat}
    (h : fetchLengthNibble buf ip lh = some (nib, ip1, lh1)) :
    (lh = 0 ∧ ∃ b, buf[ip]? = some b ∧ nib = b % 16 ∧ ip1 = ip + 1 ∧
        lh1 = ip) ∨
    (lh ≠ 0 ∧ ∃ b, buf[lh]? = some b ∧ nib = b / 16 ∧ ip1 = ip ∧
        lh1 = 0) := by
  simp only [fetchLengthNibble] at h
  split at h
  · next hc =>
    left
    refine ⟨hc, ?_⟩
    split at h
    · cases h
    · next b hb =>
      refine ⟨b, hb, ?_⟩
      simp only [Option.some.injEq, Prod.mk.injEq] at h
      exact ⟨h.1.symm, h.2.1.symm, h.2.2.symm⟩
  · next hc =>
    right
    refine ⟨hc, ?_⟩
    split at h
    · cases h
    · next b hb =>
      refine ⟨b, hb, ?_⟩
      simp only [Option.some.injEq, Prod.mk.injEq] at h
      exact ⟨h.1.symm, h.2.1.symm, h.2.2.symm⟩

lemma decodeMatchLength_spec {buf : List Nat} {w ip lh l ip2 lh2 : Nat}
    (h : decodeMatchLength buf w ip lh = some (l, ip2, lh2)) :
    ip ≤ ip2 ∧ (ip2 = ip ∨ ip2 ≤ buf.length) ∧
    ((lh2 = lh ∧ ip2 = ip) ∨ lh2 = 0 ∨
      (lh = 0 ∧ lh2 = ip ∧ ip < ip2 ∧ lh2 < buf.length)) := by
  simp only [decodeMatchLength] at h
  by_cases h7 : w % 8 = 7
  · rw [if_pos h7] at h
    rcases hfn : fetchLengthNibble buf ip lh with _ | ⟨nib, ip1, lh1⟩
    · simp only [hfn] at h
      cases h
    · simp only [hfn] at h
      rcases fetchLengthNibble_spec hfn with ⟨hlh0, b, hb, hnib, hip1, hlh1⟩ |
        ⟨hlhne, b, hb, hnib, hip1, hlh1⟩
      · have hiplt : ip < buf.length := get?_some_lt hb
        by_cases h15 : nib = 15
        · rw [if_pos h15] at h
          rcases hb2 : buf[ip1]? with _ | b2
          · simp only [hb2] at h
            cases h
          · simp only [hb2] at h
            have hip1lt : ip1 < buf.length := get?_some_lt hb2
            by_cases h255 : b2 = 255
            · rw [if_pos h255] at h
              by_cases hsl : (sliceBytes buf (ip1 + 1) 2).length = 2
              · rw [if_pos hsl] at h
                by_cases hlt : leNat (sliceBytes buf (ip1 + 1) 2) < 15 + 7
                · rw [if_pos hlt] at h; cases h
                · rw [if_neg hlt] at h
                  simp only [Option.some.injEq, Prod.mk.injEq] at h
                  have hsl' := (sliceBytes_length_eq_iff (by omega)).mp hsl
                  omega
              · rw [if_neg hsl] at h; cases h
            · rw [if_neg h255] at h
              simp only [Option.some.injEq, Prod.mk.injEq] at h
              omega
        · rw [if_neg h15] at h
          simp only [Option.some.injEq, Prod.mk.injEq] at h
          omega
      · have hlhlt : lh < buf.length := get?_some_lt hb
        by_cases h15 : nib = 15
        · rw [if_pos h15] at h
          rcases hb2 : buf[ip1]? with _ | b2
          · simp only [hb2] at h
            cases h
          · simp only [hb2] at h
            have hip1lt : ip1 < buf.length := get?_some_lt hb2
            by_cases h255 : b2 = 255
            · rw [if_pos h255] at h
              by_cases hsl : (sliceBytes buf (ip1 + 1) 2).length = 2
              · rw [if_pos hsl] at h
                by_cases hlt : leNat (sliceBytes buf (ip1 + 1) 2) < 15 + 7
                · rw [if_pos hlt] at h; cases h
                · rw [if_neg hlt] at h
                  simp only [Option.some.injEq, Prod.mk.injEq] at h
                  have hsl' := (sliceBytes_length_eq_iff (by omega)).mp hsl
                  omega
              · rw [if_neg hsl] at h; cases h
            · rw [if_neg h255] at h
              simp only [Option.some.injEq, Prod.mk.injEq] at h
              omega
        · rw [if_neg h15] at h
          simp only [Option.some.injEq, Prod.mk.injEq] at h
          omega
  · rw [if_neg h7] at h
    simp only [Option.some.injEq, Prod.mk.injEq] at h
    omega

lemma decodeMatchLength_bound {buf : List Nat} {w ip lh l ip2 lh2 : Nat}
    (hbytes : ∀ b ∈ buf, b < 256)
    (h : decodeMatchLength buf w ip lh = some (l, ip2, lh2)) :
    3 ≤ l ∧ l ≤ 65538 := by
  simp only [decodeMatchLength] at h
  by_cases h7 : w % 8 = 7
  · rw [if_pos h7] at h
    rcases hfn : fetchLengthNibble buf ip lh with _ | ⟨nib, ip1, lh1⟩
    · simp only [hfn] at h
      cases h
    · simp only [hfn] at h
      have hnib15 : nib ≤ 15 := by
        rcases fetchLengthNibble_spec hfn with ⟨-, b, hb, hnib, -, -⟩ |
          ⟨-, b, hb, hnib, -, -⟩ <;>
          have := hbytes b (get?_some_mem hb) <;> omega
      by_cases h15 : nib = 15
      · rw [if_pos h15] at h
        rcases hb2 : buf[ip1]? with _ | b2
        · simp only [hb2] at h
          cases h
        · simp only [hb2] at h
          have hb2' : b2 < 256 := hbytes b2 (get?_some_mem hb2)
          by_cases h255 : b2 = 255
          · rw [if_pos h255] at h
            by_cases hsl : (sliceBytes buf (ip1 + 1) 2).length = 2
            · rw [if_pos hsl] at h
              by_cases hlt : leNat (sliceBytes buf (ip1 + 1) 2) < 15 + 7
              · rw [if_pos hlt] at h; cases h
              · rw [if_neg hlt] at h
                have hL : leNat (sliceBytes buf (ip1 + 1) 2) < 65536 := by
                  have := leNat_lt_pow (sliceBytes buf (ip1 + 1) 2)
                    (fun b hb => hbytes b (sliceBytes_subset b hb))
                  rw [hsl] at this
                  norm_num at this
                  exact this
                simp only [Option.some.injEq, Prod.mk.injEq] at h
                omega
            · rw [if_neg hsl] at h; cases h
          · rw [if_neg h255] at h
            simp only [Option.some.injEq, Prod.mk.injEq] at h
            omega
      · rw [if_neg h15] at h
        simp only [Option.some.injEq, Prod.mk.injEq] at h
        omega
  · rw [if_neg h7] at h
    simp only [Option.some.injEq, Prod.mk.injEq] at h
    have : w % 8 < 8 := Nat.mod_lt w (by omega)
    omega

lemma matchCopy_spec : ∀ (n : Nat) (out : List Nat) (pos off : Nat),
    out.length = pos →
    (matchCopy n out pos off).1.length = (matchCopy n out pos off).2.1 ∧
    pos ≤ (matchCopy n out pos off).2.1 ∧
    ∃ t, (matchCopy n out pos off).1 = out ++ t := by
  intro n
  induction n with
  | zero =>
    intro out pos off hlen
    exact ⟨hlen, Nat.le_refl pos, [], (List.append_nil out).symm⟩
  | succ n ih =>
    intro out pos off hlen
    by_cases hoff : pos < off
    · have heq : matchCopy (n + 1) out pos off = (out, pos, true) := by
        simp [matchCopy, hoff]
      rw [heq]
      exact ⟨hlen, Nat.le_refl pos, [], (List.append_nil out).symm⟩
    · rcases hg : out[pos - off]? with _ | b
      · have heq : matchCopy (n + 1) out pos off = (out, pos, true) := by
          simp [matchCopy, hoff, hg]
        rw [heq]
        exact ⟨hlen, Nat.le_refl pos, [], (List.append_nil out).symm⟩
      · by_cases hv : isValidWriteRequest pos = true
        · have heq : matchCopy (n + 1) out pos off
              = matchCopy n (bytesWrite out pos b) (pos + 1) off := by
            simp [matchCopy, hoff, hg, hv]
          rw [heq]
          have hlen' : (bytesWrite out pos b).length = pos + 1 := by
            rw [bytesWrite_append hlen]
            simp [hlen]
          obtain ⟨h1, h2, t, ht⟩ := ih (bytesWrite out pos b) (pos + 1) off hlen'
          refine ⟨h1, by omega, b :: t, ?_⟩
          rw [ht, bytesWrite_append hlen]
          simp
        · have heq : matchCopy (n + 1) out pos off = (out, pos, true) := by
            simp [matchCopy, hoff, hg, hv]
          rw [heq]
          exact ⟨hlen, Nat.le_refl pos, [], (List.append_nil out).symm⟩

lemma lzStepBody_cont_spec {buf : List Nat} {s s' : DecompState}
    (h : lzStepBody buf s = .cont s') :
    s.inputPosition < s'.inputPosition ∧
    s'.inputPosition ≤ buf.length ∧
    (s.output.length = s.outputPosition →
      s'.output.length = s'.outputPosition ∧ ∃ t, s'.output = s.output ++ t) ∧
    (4 ≤ s.inputPosition →
      (s.lastLengthHalfByte ≠ 0 →
        6 ≤ s.lastLengthHalfByte ∧ s.lastLengthHalfByte < s.inputPosition ∧
        s.lastLengthHalfByte < buf.length) →
      (s'.lastLengthHalfByte ≠ 0 →
        6 ≤ s'.lastLengthHalfByte ∧ s'.lastLengthHalfByte < s'.inputPosition ∧
        s'.lastLengthHalfByte < buf.length)) := by
  simp only [lzStepBody] at h
  by_cases hflag : s.bufferedFlags &&& (1 <<< (s.bufferedFlagCount - 1)) = 0
  · rw [if_pos hflag] at h
    rcases hg : buf[s.inputPosition]? with _ | b
    · simp only [hg] at h
      cases h
    · simp only [hg] at h
      by_cases hv : isValidWriteRequest s.outputPosition = true
      · rw [if_pos hv] at h
        injection h with h'
        subst h'
        have hlt := get?_some_lt hg
        refine ⟨by dsimp; omega, by dsimp; omega, ?_, ?_⟩
        · intro hlen
          dsimp
          refine ⟨?_, [b], bytesWrite_append hlen⟩
          rw [bytesWrite_append hlen]
          simp [hlen]
        · intro h4 hold hne
          dsimp at hne ⊢
          have hc := hold hne
          omega
      · rw [if_neg hv] at h
        cases h
  · rw [if_neg hflag] at h
    by_cases hend : s.inputPosition = buf.length
    · rw [if_pos hend] at h
      cases h
    · rw [if_neg hend] at h
      by_cases hm : (sliceBytes buf s.inputPosition 2).length = 2
      · rw [if_pos hm] at h
        rcases hd : decodeMatchLength buf (leNat (sliceBytes buf s.inputPosition 2))
            (s.inputPosition + 2) s.lastLengthHalfByte with _ | ⟨len, ip2, lh2⟩
        · simp only [hd] at h
          cases h
        · simp only [hd] at h
          by_cases hbg : (matchCopy len s.output s.outputPosition
              (leNat (sliceBytes buf s.inputPosition 2) / 8 + 1)).2.2 = true
          · rw [if_pos hbg] at h
            cases h
          · rw [if_neg hbg] at h
            injection h with h'
            subst h'
            have hip2le : s.inputPosition + 2 ≤ buf.length :=
              (sliceBytes_length_eq_iff (by omega)).mp hm
            obtain ⟨hle, hor, hcache⟩ := decodeMatchLength_spec hd
            refine ⟨by dsimp; omega, by dsimp; omega, ?_, ?_⟩
            · intro hlen
              obtain ⟨hc1, hc2, t, ht⟩ :=
                matchCopy_spec len s.output s.outputPosition
                  (leNat (sliceBytes buf s.inputPosition 2) / 8 + 1) hlen
              exact ⟨hc1, t, ht⟩
            · intro h4 hold hne
              dsimp at hne ⊢
              rcases hcache with ⟨he, hi⟩ | he | ⟨hlh0, he, hi, hl⟩
              · have hc := hold (by omega)
                omega
              · omega
              · omega
      · rw [if_neg hm] at h
        cases h

lemma lzStepBody_done_ext {buf : List Nat} {s : DecompState} {out : List Nat}
    (hlen : s.output.length = s.outputPosition)
    (h : lzStepBody buf s = .done out) : ∃ t, out = s.output ++ t := by
  simp only [lzStepBody] at h
  by_cases hflag : s.bufferedFlags &&& (1 <<< (s.bufferedFlagCount - 1)) = 0
  · rw [if_pos hflag] at h
    rcases hg : buf[s.inputPosition]? with _ | b
    · simp only [hg] at h
      injection h with h'
      exact ⟨[], by simp [← h']⟩
    · simp only [hg] at h
      by_cases hv : isValidWriteRequest s.outputPosition = true
      · rw [if_pos hv] at h
        cases h
      · rw [if_neg hv] at h
        injection h with h'
        exact ⟨[], by simp [← h']⟩
  · rw [if_neg hflag] at h
    by_cases hend : s.inputPosition = buf.length
    · rw [if_pos hend] at h
      injection h with h'
      exact ⟨[], by simp [← h']⟩
    · rw [if_neg hend] at h
      by_cases hm : (sliceBytes buf s.inputPosition 2).length = 2
      · rw [if_pos hm] at h
        rcases hd : decodeMatchLength buf (leNat (sliceBytes buf s.inputPosition 2))
            (s.inputPosition + 2) s.lastLengthHalfByte with _ | ⟨len, ip2, lh2⟩
        · simp only [hd] at h
          injection h with h'
          exact ⟨[], by simp [← h']⟩
        · simp only [hd] at h
          by_cases hbg : (matchCopy len s.output s.outputPosition
              (leNat (sliceBytes buf s.inputPosition 2) / 8 + 1)).2.2 = true
          · rw [if_pos hbg] at h
            injection h with h'
            obtain ⟨-, -, t, ht⟩ :=
              matchCopy_spec len s.output s.outputPosition
                (leNat (sliceBytes buf s.inputPosition 2) / 8 + 1) hlen
            exact ⟨t, by rw [← h']; exact ht⟩
          · rw [if_neg hbg] at h
            cases h
      · rw [if_neg hm] at h
        injection h with h'
        exact ⟨[], by simp [← h']⟩

lemma lzStep_cont_advance {buf : List Nat} {s s' : DecompState}
    (h : lzStep buf s = .cont s') :
    s.inputPosition < s'.inputPosition ∧ s'.inputPosition ≤ buf.length := by
  simp only [lzStep] at h
  rcases hr : refillFlags buf s with _ | s₁
  · simp only [hr] at h
    cases h
  · simp only [hr] at h
    obtain ⟨hb1, hb2, -, -⟩ := lzStepBody_cont_spec h
    rcases refillFlags_spec hr with ⟨-, rfl⟩ | ⟨-, hle, rfl⟩
    · exact ⟨hb1, hb2⟩
    · dsimp at hb1
      exact ⟨by omega, hb2⟩

/-- The invariant maintained by the decode loop: the output length tracks the
write cursor, the input position never passes the end of the buffer, a
non-zero flag counter means at least one flag word has been consumed, and a
pending cached length-extension byte sits at position at least 6, strictly
inside the already-consumed input. -/
def StateInv (buf : List Nat) (s : DecompState) : Prop :=
  s.output.length = s.outputPosition ∧
  s.inputPosition ≤ buf.length ∧
  (s.bufferedFlagCount ≠ 0 → 4 ≤ s.inputPosition) ∧
  (s.lastLengthHalfByte ≠ 0 →
    6 ≤ s.lastLengthHalfByte ∧ s.lastLengthHalfByte < s.inputPosition ∧
    s.lastLengthHalfByte < buf.length)

lemma stateInv_init (buf : List Nat) : StateInv buf lzInit := by
  simp [StateInv, lzInit]

lemma lzStep_cont_inv {buf : List Nat} {s s' : DecompState}
    (hinv : StateInv buf s) (h : lzStep buf s = .cont s') :
    StateInv buf s' ∧ s.inputPosition < s'.inputPosition ∧
    ∃ t, s'.output = s.output ++ t := by
  obtain ⟨hi1, hi2, hi3, hi4⟩ := hinv
  simp only [lzStep] at h
  rcases hr : refillFlags buf s with _ | s₁
  · simp only [hr] at h
    cases h
  · simp only [hr] at h
    obtain ⟨hb1, hb2, hb3, hb4⟩ := lzStepBody_cont_spec h
    rcases refillFlags_spec hr with ⟨hcne, rfl⟩ | ⟨hc0, hle, rfl⟩
    · have h4 := hi3 hcne
      obtain ⟨hlen', t, ht⟩ := hb3 hi1
      refine ⟨⟨hlen', hb2, fun _ => by omega, hb4 h4 hi4⟩, hb1, t, ht⟩
    · dsimp at hb1 hb2 hb3 hb4
      obtain ⟨hlen', t, ht⟩ := hb3 hi1
      have hcache : s.lastLengthHalfByte ≠ 0 →
          6 ≤ s.lastLengthHalfByte ∧ s.lastLengthHalfByte < s.inputPosition + 4 ∧
          s.lastLengthHalfByte < buf.length := by
        intro hne
        have := hi4 hne
        omega
      refine ⟨⟨hlen', hb2, fun _ => by omega, hb4 (by omega) hcache⟩, by omega, t, ht⟩

lemma reaches_inv {buf : List Nat} {s : DecompState} (h : Reaches buf s) :
    StateInv buf s := by
  induction h with
  | init => exact stateInv_init buf
  | step hr hs ih => exact (lzStep_cont_inv ih hs).1

lemma lzStep_cont_output {buf : List Nat} {s s' : DecompState}
    (hlen : s.output.length = s.outputPosition) (h : lzStep buf s = .cont s') :
    s'.output.length = s'.outputPosition ∧ ∃ t, s'.output = s.output ++ t := by
  simp only [lzStep] at h
  rcases hr : refillFlags buf s with _ | s₁
  · simp only [hr] at h
    cases h
  · simp only [hr] at h
    obtain ⟨-, -, hb3, -⟩ := lzStepBody_cont_spec h
    rcases refillFlags_spec hr with ⟨-, rfl⟩ | ⟨-, -, rfl⟩
    · exact hb3 hlen
    · exact hb3 hlen

lemma lzStep_done_ext {buf : List Nat} {s : DecompState} {out : List Nat}
    (hlen : s.output.length = s.outputPosition)
    (h : lzStep buf s = .done out) : ∃ t, out = s.output ++ t := by
  simp only [lzStep] at h
  rcases hr : refillFlags buf s with _ | s₁
  · simp only [hr] at h
    injection h with h'
    exact ⟨[], by simp [← h']⟩
  · simp only [hr] at h
    have houtp : s₁.output = s.output ∧ s₁.outputPosition = s.outputPosition := by
      rcases refillFlags_spec hr with ⟨-, rfl⟩ | ⟨-, -, rfl⟩ <;> exact ⟨rfl, rfl⟩
    obtain ⟨t, ht⟩ := lzStepBody_done_ext (by rw [houtp.1, houtp.2]; exact hlen) h
    exact ⟨t, by rw [ht, houtp.1]⟩

lemma lzLoopS_stable {buf : List Nat} :
    ∀ (fuel₁ fuel₂ : Nat) (s : DecompState),
      buf.length - s.inputPosition < fuel₁ →
      buf.length - s.inputPosition < fuel₂ →
      lzLoopS buf fuel₁ s = lzLoopS buf fuel₂ s := by
  intro fuel₁
  induction fuel₁ with
  | zero =>
    intro fuel₂ s h1 h2
    omega
  | succ n ih =>
    intro fuel₂ s h1 h2
    cases fuel₂ with
    | zero => omega
    | succ m =>
      rcases hs : lzStep buf s with out | s'
      · simp only [lzLoopS, hs]
      · simp only [lzLoopS, hs]
        obtain ⟨ha, hb⟩ := lzStep_cont_advance hs
        exact ih m s' (by omega) (by omega)

lemma lzLoopS_output_ext {buf : List Nat} :
    ∀ (fuel : Nat) (s : DecompState), s.output.length = s.outputPosition →
      ∃ t, (lzLoopS buf fuel s).2 = s.output ++ t := by
  intro fuel
  induction fuel with
  | zero =>
    intro s _
    exact ⟨[], by simp [lzLoopS]⟩
  | succ n ih =>
    intro s hlen
    rcases hs : lzStep buf s with out | s'
    · obtain ⟨t, ht⟩ := lzStep_done_ext hlen hs
      exact ⟨t, by simp only [lzLoopS, hs]; exact ht⟩
    · obtain ⟨hlen', t₁, ht₁⟩ := lzStep_cont_output hlen hs
      obtain ⟨t₂, ht₂⟩ := ih s' hlen'
      refine ⟨t₁ ++ t₂, ?_⟩
      simp only [lzLoopS, hs]
      rw [ht₂, ht₁, List.append_assoc]

lemma scanWindowsFrom_eq (buf : List Nat) :
    ∀ (n pos : Nat), buf.length - pos ≤ n →
      scanWindowsFrom buf pos =
        ((List.range ((buf.length - pos + 15) / 16)).map
            (fun k => sliceBytes buf (pos + 16 * k) 4096)).filter
          (fun w => !startsWithNulls12 w) := by
  intro n
  induction n with
  | zero =>
    intro pos h
    rw [scanWindowsFrom, dif_neg (by omega)]
    have hz : (buf.length - pos + 15) / 16 = 0 := by omega
    rw [hz]
    simp
  | succ n ih =>
    intro pos h
    by_cases hlt : pos < buf.length
    · rw [scanWindowsFrom, dif_pos hlt]
      have hm : (buf.length - pos + 15) / 16
          = (buf.length - (pos + 16) + 15) / 16 + 1 := by omega
      rw [hm, List.range_succ_eq_map, List.map_cons, List.map_map,
        List.filter_cons]
      have hcomp : ((fun k => sliceBytes buf (pos + 16 * k) 4096) ∘ Nat.succ)
          = fun k => sliceBytes buf (pos + 16 + 16 * k) 4096 := by
        funext k
        have : pos + 16 * (k + 1) = pos + 16 + 16 * k := by ring
        simp [Function.comp, Nat.succ_eq_add_one, this]
      rw [hcomp, ← ih (pos + 16) (by omega)]
      have h0 : pos + 16 * 0 = pos := by ring
      rw [h0]
      cases hsw : startsWithNulls12 (sliceBytes buf pos 4096) <;> simp [hsw]
    · rw [scanWindowsFrom, dif_neg hlt]
      have hz : (buf.length - pos + 15) / 16 = 0 := by omega
      rw [hz]
      simp

/-! ## Claim theorems -/

/-- Claim C1: the final match length is `f + 3` for a 3-bit field value
`f` in 0-6; `n + 7 + 3` for field value 7 with extension nibble `n` in
0-14; `B2 + 15 + 7 + 3` for nibble 15 with escape byte `B2` not equal to
255; `(L - 22) + 15 + 7 + 3` for `B2 = 255` with 16-bit little-endian
`L` at least 22; and `L < 22` stops decoding at that point (the length
computation reports bogus data, upon which the loop returns the output
produced so far). -/
theorem match_length_arithmetic (buf : List Nat) (w ip lh : Nat) :
    (w % 8 ≤ 6 → decodeMatchLength buf w ip lh = some (w % 8 + 3, ip, lh)) ∧
    (∀ nib ip1 lh1, w % 8 = 7 →
      fetchLengthNibble buf ip lh = some (nib, ip1, lh1) → nib ≤ 14 →
      decodeMatchLength buf w ip lh = some (nib + 7 + 3, ip1, lh1)) ∧
    (∀ nib ip1 lh1 b2, w % 8 = 7 →
      fetchLengthNibble buf ip lh = some (nib, ip1, lh1) → nib = 15 →
      buf[ip1]? = some b2 → b2 ≠ 255 →
      decodeMatchLength buf w ip lh = some (b2 + 15 + 7 + 3, ip1 + 1, lh1)) ∧
    (∀ nib ip1 lh1, w % 8 = 7 →
      fetchLengthNibble buf ip lh = some (nib, ip1, lh1) → nib = 15 →
      buf[ip1]? = some 255 →
      (sliceBytes buf (ip1 + 1) 2).length = 2 →
      (22 ≤ leNat (sliceBytes buf (ip1 + 1) 2) →
        decodeMatchLength buf w ip lh =
          some (leNat (sliceBytes buf (ip1 + 1) 2) - 22 + 15 + 7 + 3,
            ip1 + 1 + 2, lh1)) ∧
      (leNat (sliceBytes buf (ip1 + 1) 2) < 22 →
        decodeMatchLength buf w ip lh = none)) := by
  refine ⟨?_, ?_, ?_, ?_⟩
  · intro h6
    simp only [decodeMatchLength]
    rw [if_neg (by omega)]
  · intro nib ip1 lh1 h7 hfn h14
    simp only [decodeMatchLength, if_pos h7, hfn]
    rw [if_neg (by omega)]
  · intro nib ip1 lh1 b2 h7 hfn h15 hb2 hne
    simp only [decodeMatchLength, if_pos h7, hfn, if_pos h15, hb2]
    rw [if_neg hne]
  · intro nib ip1 lh1 h7 hfn h15 hb2 hsl
    constructor
    · intro hge
      simp only [decodeMatchLength, if_pos h7, hfn, if_pos h15, hb2, ite_true]
      rw [if_pos hsl, if_neg (by omega)]
    · intro hlt
      simp only [decodeMatchLength, if_pos h7, hfn, if_pos h15, hb2, ite_true]
      rw [if_pos hsl, if_pos (by omega)]

theorem match_length_arithmetic_witness :
    decodeMatchLength [] 5 0 0 = some (8, 0, 0) ∧
    decodeMatchLength [23] 7 0 0 = some (17, 1, 0) ∧
    decodeMatchLength [31, 9] 7 0 0 = some (34, 2, 0) ∧
    decodeMatchLength [31, 255, 100, 0] 7 0 0 = some (103, 4, 0) ∧
    decodeMatchLength [31, 255, 10, 0] 7 0 0 = none :=
  ⟨(match_length_arithmetic [] 5 0 0).1 (by decide),
   (match_length_arithmetic [23] 7 0 0).2.1 7 1 0 (by decide) (by decide)
     (by decide),
   (match_length_arithmetic [31, 9] 7 0 0).2.2.1 15 1 0 9 (by decide)
     (by decide) (by decide) (by decide) (by decide),
   ((match_length_arithmetic [31, 255, 100, 0] 7 0 0).2.2.2 15 1 0 (by decide)
     (by decide) (by decide) (by decide) (by decide)).1 (by decide),
   ((match_length_arithmetic [31, 255, 10, 0] 7 0 0).2.2.2 15 1 0 (by decide)
     (by decide) (by decide) (by decide) (by decide)).2 (by decide)⟩

/-- Claim C2: the nibble cache is empty (sentinel 0) at the start of every
decode run; a field-7 match with the cache empty reads one extension byte,
uses its low nibble, caches the byte's position and advances the input by
one byte; a field-7 match with the cache pending uses the cached byte's
high nibble, consumes zero additional input bytes and clears the cache, so
two consecutive field-7 matches share exactly one extension byte. -/
theorem nibble_cache_round_trip (buf : List Nat) (ip lh : Nat) :
    lzInit.lastLengthHalfByte = 0 ∧
    (∀ b, lh = 0 → buf[ip]? = some b →
      fetchLengthNibble buf ip lh = some (b % 16, ip + 1, ip)) ∧
    (∀ b, lh ≠ 0 → buf[lh]? = some b →
      fetchLengthNibble buf ip lh = some (b / 16, ip, 0)) := by
  refine ⟨rfl, ?_, ?_⟩
  · intro b h0 hb
    subst h0
    simp [fetchLengthNibble, hb]
  · intro b hne hb
    simp only [fetchLengthNibble, if_neg hne, hb]

theorem nibble_cache_round_trip_witness :
    fetchLengthNibble [0, 0, 0, 171] 3 0 = some (11, 4, 3) ∧
    fetchLengthNibble [0, 0, 0, 171] 9 3 = some (10, 9, 0) :=
  ⟨(nibble_cache_round_trip [0, 0, 0, 171] 3 0).2.1 171 rfl (by decide),
   (nibble_cache_round_trip [0, 0, 0, 171] 9 3).2.2 171 (by decide)
     (by decide)⟩

/-- Claim C3: `LZ77DecompressBuffer` is a total function on arbitrary byte
buffers; every stop of the decode loop (short reads, invalid references,
the 2 GiB ceiling, or clean end of input) returns the output accumulated so
far, extended at most by the partial copy performed in the stopping
iteration, and the top-level function is exactly the fuelled loop run from
the initial state (the result is always a byte sequence, never a failure). -/
theorem decompress_never_fails (buf : List Nat) :
    (∀ s out, s.output.length = s.outputPosition →
      lzStep buf s = StepResult.done out → ∃ t, out = s.output ++ t) ∧
    (∀ fuel s, s.output.length = s.outputPosition →
      ∃ t, (lzLoopS buf fuel s).2 = s.output ++ t) ∧
    LZ77DecompressBuffer buf = (lzLoopS buf (buf.length + 1) lzInit).2 :=
  ⟨fun _ _ hlen h => lzStep_done_ext hlen h,
   fun fuel s hlen => lzLoopS_output_ext fuel s hlen,
   rfl⟩

theorem decompress_never_fails_witness :
    (∃ t, ([] : List Nat) = lzInit.output ++ t) ∧
    (∃ t, (lzLoopS [1, 2, 3] 4 lzInit).2 = lzInit.output ++ t) :=
  ⟨(decompress_never_fails []).1 lzInit [] rfl (by decide),
   (decompress_never_fails [1, 2, 3]).2.1 4 lzInit rfl⟩

/-- Claim C4: a back-reference whose offset exceeds the current output
length (the write cursor equals the output length) makes the copy loop stop
on its very first iteration with the output unchanged and the bogus flag
set, so decoding terminates returning exactly the output produced before
the match; a concrete whole-buffer run confirms the end-to-end behaviour. -/
theorem match_offset_exceeds_output :
    (∀ (n : Nat) (out : List Nat) (pos off : Nat),
      out.length < off → pos = out.length → 0 < n →
      matchCopy n out pos off = (out, pos, true)) ∧
    LZ77DecompressBuffer [0, 0, 0, 64, 65, 8, 0] = [65] := by
  constructor
  · intro n out pos off hoff hpos hn
    cases n with
    | zero => omega
    | succ m =>
      have hlt : pos < off := by omega
      simp [matchCopy, hlt]
  · rfl

theorem match_offset_exceeds_output_witness :
    matchCopy 3 [65] 1 2 = ([65], 1, true) :=
  match_offset_exceeds_output.1 3 [65] 1 2 (by decide) (by decide) (by decide)

/-- Claim C5: in every reachable decode state the decoded output length
equals the write cursor `OutputPosition`; every non-stopping copy step of a
back-reference reads position `pos - off` with `off ≥ 1 ∧ off ≤ pos`, which
is strictly behind the write position, and advances one byte at a time
(which is what permits overlapping copies); a read position that would be
negative (`pos < off`) stops the copy immediately. -/
theorem output_cursor_invariant (buf : List Nat) :
    (∀ s, Reaches buf s → s.output.length = s.outputPosition) ∧
    (∀ (n : Nat) (out : List Nat) (pos off b : Nat), 1 ≤ off → off ≤ pos →
      out[pos - off]? = some b → isValidWriteRequest pos = true →
      matchCopy (n + 1) out pos off
        = matchCopy n (bytesWrite out pos b) (pos + 1) off ∧ pos - off < pos) ∧
    (∀ (n : Nat) (out : List Nat) (pos off : Nat), pos < off →
      matchCopy (n + 1) out pos off = (out, pos, true)) := by
  refine ⟨fun s hs => (reaches_inv hs).1, ?_, ?_⟩
  · intro n out pos off b h1 h2 hb hv
    have hno : ¬ pos < off := by omega
    constructor
    · simp [matchCopy, hno, hb, hv]
    · omega
  · intro n out pos off hlt
    simp [matchCopy, hlt]

theorem output_cursor_invariant_witness :
    (⟨1073741824, 31, 5, 1, 0, [65]⟩ : DecompState).output.length
      = (⟨1073741824, 31, 5, 1, 0, [65]⟩ : DecompState).outputPosition :=
  (output_cursor_invariant [0, 0, 0, 64, 65, 8, 0]).1
    ⟨1073741824, 31, 5, 1, 0, [65]⟩
    (Reaches.step Reaches.init (by decide))

/-- Claim C6: a 36-byte buffer made of one all-zero flag word followed by
32 literal bytes decodes to exactly those 32 bytes in order, and the decode
loop stops in a state whose input position is exactly 36 (all 36 input
bytes consumed). -/
theorem literal_only_buffer_roundtrip
    (b0 b1 b2 b3 b4 b5 b6 b7 b8 b9 b10 b11 b12 b13 b14 b15
     b16 b17 b18 b19 b20 b21 b22 b23 b24 b25 b26 b27 b28 b29 b30 b31 : Nat) :
    LZ77DecompressBuffer [0, 0, 0, 0,
        b0, b1, b2, b3, b4, b5, b6, b7, b8, b9, b10, b11, b12, b13, b14, b15,
        b16, b17, b18, b19, b20, b21, b22, b23, b24, b25, b26, b27, b28, b29,
        b30, b31]
      = [b0, b1, b2, b3, b4, b5, b6, b7, b8, b9, b10, b11, b12, b13, b14, b15,
        b16, b17, b18, b19, b20, b21, b22, b23, b24, b25, b26, b27, b28, b29,
        b30, b31] ∧
    (lzLoopS [0, 0, 0, 0,
        b0, b1, b2, b3, b4, b5, b6, b7, b8, b9, b10, b11, b12, b13, b14, b15,
        b16, b17, b18, b19, b20, b21, b22, b23, b24, b25, b26, b27, b28, b29,
        b30, b31]
      (([0, 0, 0, 0,
        b0, b1, b2, b3, b4, b5, b6, b7, b8, b9, b10, b11, b12, b13, b14, b15,
        b16, b17, b18, b19, b20, b21, b22, b23, b24, b25, b26, b27, b28, b29,
        b30, b31] : List Nat).length + 1) lzInit).1.inputPosition = 36 := by
  constructor <;>
    simp [LZ77DecompressBuffer, lzLoopS, lzStep, lzStepBody, refillFlags,
      sliceBytes, leNat, bytesWrite, isValidWriteRequest, lzInit]

/-- Claim C7: decompressed data shorter than 1024 bytes is discarded; data
of length in 1024-4095 is right-padded with zero bytes to exactly 4096;
data longer than 4096 is truncated to its first 4096 bytes; data of length
exactly 4096 passes through unchanged; every emitted page has length
exactly 4096. -/
theorem page_post_processing (d : List Nat) :
    (d.length < 1024 → PagePostProcess d = none) ∧
    (1024 ≤ d.length → d.length < 4096 →
      PagePostProcess d = some (d ++ List.replicate (4096 - d.length) 0)) ∧
    (4096 < d.length → PagePostProcess d = some (d.take 4096)) ∧
    (d.length = 4096 → PagePostProcess d = some d) ∧
    (∀ p, PagePostProcess d = some p → p.length = 4096) := by
  refine ⟨?_, ?_, ?_, ?_, ?_⟩
  · intro h
    simp only [PagePostProcess]
    rw [if_neg (by omega)]
  · intro h1 h2
    simp only [PagePostProcess]
    rw [if_pos h1, if_neg (by omega), if_pos h2]
  · intro h
    simp only [PagePostProcess]
    rw [if_pos (by omega), if_pos h]
  · intro h
    simp only [PagePostProcess]
    rw [if_pos (by omega), if_neg (by omega), if_neg (by omega)]
  · intro p hp
    simp only [PagePostProcess] at hp
    by_cases hmin : 1024 ≤ d.length
    · rw [if_pos hmin] at hp
      by_cases hgt : 4096 < d.length
      · rw [if_pos hgt] at hp
        injection hp with hp'
        rw [← hp']
        simp
        omega
      · rw [if_neg hgt] at hp
        by_cases hlt : d.length < 4096
        · rw [if_pos hlt] at hp
          injection hp with hp'
          rw [← hp']
          simp
          omega
        · rw [if_neg hlt] at hp
          injection hp with hp'
          rw [← hp']
          omega
    · rw [if_neg hmin] at hp
      cases hp

theorem page_post_processing_witness :
    PagePostProcess (List.replicate 1000 1) = none ∧
    PagePostProcess (List.replicate 2000 7)
      = some (List.replicate 2000 7 ++ List.replicate 2096 0) ∧
    PagePostProcess (List.replicate 5000 9)
      = some ((List.replicate 5000 9).take 4096) ∧
    PagePostProcess (List.replicate 4096 3) = some (List.replicate 4096 3) := by
  refine ⟨(page_post_processing (List.replicate 1000 1)).1
      (by rw [List.length_replicate]; omega),
    ?_,
    (page_post_processing (List.replicate 5000 9)).2.2.1
      (by rw [List.length_replicate]; omega),
    (page_post_processing (List.replicate 4096 3)).2.2.2.1
      (List.length_replicate 4096 3)⟩
  have h := (page_post_processing (List.replicate 2000 7)).2.1
    (by rw [List.length_replicate]; omega) (by rw [List.length_replicate]; omega)
  rw [List.length_replicate] at h
  norm_num at h
  exact h

/-- Claim C8: the scanner forms one candidate window at each offset `16 * k`
strictly inside the buffer (there are exactly `ceil(length / 16)` of them),
each window being the next `min 4096 remaining` bytes, and keeps exactly the
windows that do not begin with 12 zero bytes. -/
theorem scanner_window_selection (buf : List Nat) :
    ScanWindows buf =
      ((List.range ((buf.length + 15) / 16)).map
          (fun k => sliceBytes buf (16 * k) 4096)).filter
        (fun w => !startsWithNulls12 w) ∧
    (∀ pos, (sliceBytes buf pos 4096).length = min 4096 (buf.length - pos)) := by
  constructor
  · have h := scanWindowsFrom_eq buf buf.length 0 (by omega)
    simpa [ScanWindows] using h
  · intro pos
    exact sliceBytes_length buf pos 4096

/-- Claim C9: the decode loop terminates on every finite input: every
continuing iteration strictly advances the input position and never moves
it past the end of the buffer; the copy loop of a single match runs at most
`length` iterations with `length` at most 65538 for genuine byte buffers;
consequently the fuelled loop is independent of the fuel once the fuel
exceeds the buffer length, so no unbounded run is possible. -/
theorem decode_loop_terminates (buf : List Nat) :
    (∀ s s', lzStep buf s = StepResult.cont s' →
      s.inputPosition < s'.inputPosition ∧ s'.inputPosition ≤ buf.length) ∧
    (∀ w ip lh l ip2 lh2, (∀ b ∈ buf, b < 256) →
      decodeMatchLength buf w ip lh = some (l, ip2, lh2) → l ≤ 65538) ∧
    (∀ fuel, buf.length + 1 ≤ fuel →
      lzLoopS buf fuel lzInit = lzLoopS buf (buf.length + 1) lzInit) := by
  refine ⟨fun s s' h => lzStep_cont_advance h,
    fun w ip lh l ip2 lh2 hb h => (decodeMatchLength_bound hb h).2, ?_⟩
  intro fuel hf
  apply lzLoopS_stable
  · simp only [lzInit]
    omega
  · simp only [lzInit]
    omega

theorem decode_loop_terminates_witness :
    (lzInit.inputPosition
        < (⟨1073741824, 31, 5, 1, 0, [65]⟩ : DecompState).inputPosition ∧
      (⟨1073741824, 31, 5, 1, 0, [65]⟩ : DecompState).inputPosition
        ≤ ([0, 0, 0, 64, 65, 8, 0] : List Nat).length) ∧
    (18 : Nat) ≤ 65538 ∧
    lzLoopS [1, 2, 3] 9 lzInit = lzLoopS [1, 2, 3] 4 lzInit :=
  ⟨(decode_loop_terminates [0, 0, 0, 64, 65, 8, 0]).1 lzInit
      ⟨1073741824, 31, 5, 1, 0, [65]⟩ (by decide),
   (decode_loop_terminates [200]).2.1 7 0 0 18 1 0 (by decide) (by decide),
   (decode_loop_terminates [1, 2, 3]).2.2 9 (by decide)⟩

/-- Claim C10: in every reachable decode state with a pending cached
length-extension byte, the cached position is at least 6 (so it never
collides with the sentinel value 0), lies strictly inside the
already-consumed part of the input, and reading the byte back from the
buffer at that position always succeeds. -/
theorem nibble_cache_sentinel_sound (buf : List Nat) (s : DecompState)
    (hr : Reaches buf s) (hne : s.lastLengthHalfByte ≠ 0) :
    6 ≤ s.lastLengthHalfByte ∧ s.lastLengthHalfByte < s.inputPosition ∧
    buf[s.lastLengthHalfByte]?.isSome = true := by
  obtain ⟨-, -, -, h4⟩ := reaches_inv hr
  obtain ⟨ha, hb, hc⟩ := h4 hne
  refine ⟨ha, hb, ?_⟩
  rw [List.getElem?_eq_getElem hc]
  rfl

set_option maxRecDepth 10000 in
theorem nibble_cache_sentinel_sound_witness :
    6 ≤ (⟨134217728, 27, 11, 15, 10,
        [65, 66, 67, 68, 68, 68, 68, 68, 68, 68, 68, 68, 68, 68, 68]⟩ :
        DecompState).lastLengthHalfByte ∧
    (⟨134217728, 27, 11, 15, 10,
        [65, 66, 67, 68, 68, 68, 68, 68, 68, 68, 68, 68, 68, 68, 68]⟩ :
        DecompState).lastLengthHalfByte
      < (⟨134217728, 27, 11, 15, 10,
        [65, 66, 67, 68, 68, 68, 68, 68, 68, 68, 68, 68, 68, 68, 68]⟩ :
        DecompState).inputPosition ∧
    ([0, 0, 0, 8, 65, 66, 67, 68, 7, 0, 1] : List Nat)[
      (⟨134217728, 27, 11, 15, 10,
        [65, 66, 67, 68, 68, 68, 68, 68, 68, 68, 68, 68, 68, 68, 68]⟩ :
        DecompState).lastLengthHalfByte]?.isSome = true := by
  have h1 : Reaches [0, 0, 0, 8, 65, 66, 67, 68, 7, 0, 1]
      ⟨134217728, 31, 5, 1, 0, [65]⟩ :=
    Reaches.step Reaches.init (by decide)
  have h2 : Reaches [0, 0, 0, 8, 65, 66, 67, 68, 7, 0, 1]
      ⟨134217728, 30, 6, 2, 0, [65, 66]⟩ :=
    Reaches.step h1 (by decide)
  have h3 : Reaches [0, 0, 0, 8, 65, 66, 67, 68, 7, 0, 1]
      ⟨134217728, 29, 7, 3, 0, [65, 66, 67]⟩ :=
    Reaches.step h2 (by decide)
  have h4 : Reaches [0, 0, 0, 8, 65, 66, 67, 68, 7, 0, 1]
      ⟨134217728, 28, 8, 4, 0, [65, 66, 67, 68]⟩ :=
    Reaches.step h3 (by decide)
  have h5 : Reaches [0, 0, 0, 8, 65, 66, 67, 68, 7, 0, 1]
      ⟨134217728, 27, 11, 15, 10,
        [65, 66, 67, 68, 68, 68, 68, 68, 68, 68, 68, 68, 68, 68, 68]⟩ :=
    Reaches.step h4 (by decide)
  exact nibble_cache_sentinel_sound _ _ h5 (by decide)

end Winmem
